import Mathlib

/-!
Shallow embedding of the trail coverage core of projet-synclinal
(src/osm.rs, src/matching.rs, src/grid.rs, src/config.rs).

Numeric modelling: Rust f64 arithmetic is modelled exactly over ℚ.
The two transcendental helpers of the source — haversine_m
(sin/cos/sqrt/asin) and lat_lon_to_cell (to_radians, cos) — have no exact
computable counterpart, so every definition that calls them takes them as
explicit function parameters (dist, cellOf); theorems quantify over these
parameters and concrete witnesses instantiate them with realizable values.
Points are written directly as (lat, lon) pairs; the source stores
geo_types coordinates with x = lon, y = lat and reads them back as
(w.y, w.x), which is the same data up to that fixed representation.
-/

namespace Synclinal

/-- A (lat, lon) coordinate pair; exact rationals standing for f64. -/
abbrev Pt : Type := ℚ × ℚ

/-! ### Constants (src/config.rs, src/matching.rs, src/grid.rs) -/

def BBOX_SOUTH : ℚ := 44.6178
def BBOX_NORTH : ℚ := 44.68416
def BBOX_WEST : ℚ := 5.03539
def BBOX_EAST : ℚ := 5.21463

def MATCH_THRESHOLD_M : ℚ := 10
def TRAIL_STEP_M : ℚ := 5
def GPX_STEP_M : ℚ := 2
def GRID_CELL_M : ℚ := 20
def COVERED_THRESHOLD : ℚ := 1/2
def DISCRETIZE_STEP_M : ℚ := 20

/-! ### Computable floor/ceil on ℚ

Mathlib's ⌊⌋/⌈⌉ on ℚ go through the FloorRing instance, which the kernel
does not reduce; the source's f64 .floor()/.ceil() are modelled by these
computable forms, with bridging lemmas to the Mathlib operators. -/

def ratFloor (q : ℚ) : ℤ := q.num / q.den

theorem ratFloor_eq (q : ℚ) : ratFloor q = ⌊q⌋ := Rat.floor_def.symm

def ratCeil (q : ℚ) : ℤ := -ratFloor (-q)

theorem ratCeil_eq (q : ℚ) : ratCeil q = ⌈q⌉ := by
  unfold ratCeil
  rw [ratFloor_eq]
  have h : ⌈-(-q : ℚ)⌉ = -⌊(-q : ℚ)⌋ := Int.ceil_neg
  rw [neg_neg] at h
  exact h.symm

/-! ### Polyline discretization (matching.rs:130-159, grid.rs:156-189) -/

/-- coords.windows(2): the list of adjacent coordinate pairs. -/
def windows {α : Type} (l : List α) : List (α × α) := l.zip l.tail

/-- Linear interpolation between two points
(matching.rs:149-151: lat1 + (lat2 - lat1) * frac, same for lon). -/
def lerp (a b : Pt) (frac : ℚ) : Pt :=
  (a.1 + (b.1 - a.1) * frac, a.2 + (b.2 - a.2) * frac)

/-- Number of iterations of the inner while loop of discretize
(matching.rs:147-154): d starts at step - remaining and increases by step
while d ≤ segLen. Closed form, valid for step > 0 (every call site passes
one of the positive constants 5, 2, 20). -/
def windowCount (segLen step remaining : ℚ) : ℕ :=
  if step - remaining ≤ segLen then
    (ratFloor ((segLen - (step - remaining)) / step)).toNat + 1
  else 0

/-- The interpolated points the inner while loop pushes for one window;
the k-th push happens at d = (step - remaining) + k * step. -/
def windowPoints (a b : Pt) (segLen step remaining : ℚ) : List Pt :=
  (List.range (windowCount segLen step remaining)).map fun k =>
    lerp a b ((step - remaining + (k : ℚ) * step) / segLen)

/-- One iteration of the outer loop over coords.windows(2)
(matching.rs:139-156): state is (points pushed so far, remaining).
Windows of length < 1e-6 m are skipped. After the inner loop the Rust code
sets remaining = seg_len - (d - step) with final d =
(step - remaining) + count * step, i.e. seg_len + remaining - count * step. -/
def discStep (dist : Pt → Pt → ℚ) (step : ℚ) (acc : List Pt × ℚ) (w : Pt × Pt) :
    List Pt × ℚ :=
  let segLen := dist w.1 w.2
  if segLen < 1/1000000 then acc
  else
    (acc.1 ++ windowPoints w.1 w.2 segLen step acc.2,
     segLen + acc.2 - (windowCount segLen step acc.2 : ℚ) * step)

/-- matching.rs::discretize. Starts from the first coordinate, walks the
windows; note that it does NOT append the final coordinate after the loop. -/
def discretize (dist : Pt → Pt → ℚ) (coords : List Pt) (step : ℚ) : List Pt :=
  match coords with
  | [] => []
  | [_] => []
  | c0 :: c1 :: rest =>
    ((windows (c0 :: c1 :: rest)).foldl (discStep dist step) ([c0], 0)).1

/-- grid.rs::discretize_linestring. Identical loop, then always pushes the
last coordinate (grid.rs:184-186). -/
def discretizeLinestring (dist : Pt → Pt → ℚ) (coords : List Pt) (step : ℚ) :
    List Pt :=
  match coords with
  | [] => []
  | [_] => []
  | c0 :: c1 :: rest =>
    ((windows (c0 :: c1 :: rest)).foldl (discStep dist step) ([c0], 0)).1
      ++ [(c0 :: c1 :: rest).getLast (List.cons_ne_nil _ _)]

/-- matching.rs::linestring_length_m: sum of per-window distances. -/
def linestringLength (dist : Pt → Pt → ℚ) (coords : List Pt) : ℚ :=
  ((windows coords).map fun w => dist w.1 w.2).sum

unseal Rat.add Rat.sub Rat.mul Rat.inv Rat.ofScientific in
example : discretize (fun _ _ => 3) [((0:ℚ), (0:ℚ)), (1, 1)] 5 = [(0, 0)] := by
  decide

unseal Rat.add Rat.sub Rat.mul Rat.inv Rat.ofScientific in
example :
    discretizeLinestring (fun _ _ => 3) [((0:ℚ), (0:ℚ)), (1, 1)] 5 =
      [(0, 0), (1, 1)] := by
  decide

unseal Rat.add Rat.sub Rat.mul Rat.inv Rat.ofScientific in
example :
    discretize (fun _ _ => 12) [((0:ℚ), (0:ℚ)), (12, 0)] 5 =
      [(0, 0), (5, 0), (10, 0)] := by
  decide

/-! ### Network segmentation (src/osm.rs:100-179) -/

/-- A raw way as consumed by parse_overpass_json: parallel node-id and
coordinate arrays. An Overpass element whose nodes/geometry field is
absent is modelled with the empty list. The coordinate type is abstract:
segmentation never inspects coordinates. -/
structure RawWay (α : Type) where
  nodes : List ℤ
  geom : List α

/-- One node_counts increment, osm.rs:115 (the HashMap entry update,
modelled as a function update). -/
def bump (m : ℤ → ℕ) (k : ℤ) : ℤ → ℕ :=
  fun x => if x = k then m x + 1 else m x

/-- osm.rs:111-118: frequency of every node id across all ways' node
arrays. -/
def nodeCounts {α : Type} (ways : List (RawWay α)) : ℤ → ℕ :=
  ways.foldl (fun m w => w.nodes.foldl bump m) fun _ => 0

/-- osm.rs:119-123: shared_nodes — node ids with count > 1; the HashSet is
modelled by its membership test. -/
def isSharedNode {α : Type} (ways : List (RawWay α)) (n : ℤ) : Bool :=
  decide (1 < nodeCounts ways n)

/-- Body of the splitting loop, osm.rs:149-162, at interior index i.
State: (segments emitted so far, seg_start). -/
def splitStep {α : Type} (shared : ℤ → Bool) (nodes : List ℤ) (coords : List α)
    (acc : List (List α) × ℕ) (i : ℕ) : List (List α) × ℕ :=
  if shared (nodes.getD i 0) then
    (if acc.2 < i then
       (let segCoords := (coords.drop acc.2).take (i - acc.2 + 1)
        if 2 ≤ segCoords.length then acc.1 ++ [segCoords] else acc.1)
     else acc.1,
     i)
  else acc

/-- osm.rs:147-169: split one retained way at shared interior nodes.
The Rust loop runs i over 1..nodes.len()-1, then emits the final segment
coords[seg_start..] when it has at least 2 points. -/
def splitWay {α : Type} (shared : ℤ → Bool) (nodes : List ℤ) (coords : List α) :
    List (List α) :=
  let r := (List.range' 1 (nodes.length - 2)).foldl
    (splitStep shared nodes coords) ([], 0)
  let lastSeg := coords.drop r.2
  if 2 ≤ lastSeg.length then r.1 ++ [lastSeg] else r.1

/-- osm.rs:128-170: the retained-way filter (geometry of length ≥ 2,
node array of equal length) followed by splitting; output is the flat
segment-geometry list in emission order. -/
def waysSegments {α : Type} (ways : List (RawWay α)) : List (List α) :=
  (ways.map fun w =>
    if 2 ≤ w.geom.length ∧ w.nodes.length = w.geom.length then
      splitWay (isSharedNode ways) w.nodes w.geom
    else []).flatten

/-- Concatenation of segment geometries that drops the duplicated leading
junction point of every segment after the first (the statement form of the
spec's segmentation-coverage property). -/
def glue {α : Type} : List (List α) → List α
  | [] => []
  | s :: rest => s ++ (rest.map fun t => t.drop 1).flatten

example :
    splitWay (fun _ => false) [1, 2, 3] [10, 20, 30] = [[10, 20, 30]] := by
  decide

example :
    splitWay (fun n => n = 3) [1, 2, 3, 4, 5] [10, 20, 30, 40, 50] =
      [[10, 20, 30], [30, 40, 50]] := by
  decide

example :
    splitWay (fun n => n = 2 ∨ n = 3) [1, 2, 3, 4] [10, 20, 30, 40] =
      [[10, 20], [20, 30], [30, 40]] := by
  decide

example :
    waysSegments [RawWay.mk [1, 2, 3, 4, 5] [10, 20, 30, 40, 50],
                  RawWay.mk [6, 3, 7] [31, 30, 32]] =
      [[10, 20, 30], [30, 40, 50], [31, 30], [30, 32]] := by
  decide

example : glue [[10, 20, 30], [30, 40, 50]] = [10, 20, 30, 40, 50] := by
  decide

/-! ### Spatial trace index and coverage matching (src/matching.rs) -/

/-- osm.rs Segment: a sub-polyline produced by segmentation. -/
structure Segment where
  geometry : List Pt
  deriving DecidableEq

/-- gpx.rs Activity, reduced to its tracks (the name plays no role in the
core computation). -/
structure Activity where
  tracks : List (List Pt)
  deriving DecidableEq

/-- matching.rs GpsIndex. The HashMap from cell key to bucket is modelled
by its lookup function (HashMap::get with the missing-key case giving the
empty bucket); point_count is diagnostics only and omitted. -/
structure GpsIndex where
  cells : ℤ × ℤ → List Pt

/-- The 3×3 neighborhood offsets has_point_within scans
(matching.rs:73-74: dx outer and dy inner, each over -1..=1). -/
def neighborOffsets : List (ℤ × ℤ) :=
  [(-1, -1), (-1, 0), (-1, 1), (0, -1), (0, 0), (0, 1), (1, -1), (1, 0), (1, 1)]

/-- matching.rs:71-85 GpsIndex::has_point_within. dist models haversine_m
and cellOf models lat_lon_to_cell; both are transcendental in the source
and therefore parameters of the embedding. -/
def hasPointWithin (dist : Pt → Pt → ℚ) (cellOf : Pt → ℤ × ℤ)
    (idx : GpsIndex) (p : Pt) (radius : ℚ) : Bool :=
  let c := cellOf p
  neighborOffsets.any fun o =>
    (idx.cells (c.1 + o.1, c.2 + o.2)).any fun q => decide (dist p q ≤ radius)

/-- matching.rs:97-114 build_gps_index: every activity track is
discretized at GPX_STEP_M and each resulting point is appended to the
bucket of its own cell, in traversal order. -/
def buildGpsIndex (dist : Pt → Pt → ℚ) (cellOf : Pt → ℤ × ℤ)
    (activities : List Activity) : GpsIndex :=
  { cells := fun key =>
      ((activities.map fun a =>
          (a.tracks.map fun t =>
            (discretize dist t GPX_STEP_M).filter fun p =>
              decide (cellOf p = key)).flatten).flatten) }

/-- matching.rs:118-128 segment_coverage, generalized over the match
radius; the source always passes MATCH_THRESHOLD_M (see segmentCoverage). -/
def segmentCoverageWith (dist : Pt → Pt → ℚ) (cellOf : Pt → ℤ × ℤ)
    (idx : GpsIndex) (geom : List Pt) (radius : ℚ) : ℚ :=
  let samplePoints := discretize dist geom TRAIL_STEP_M
  if samplePoints.isEmpty then 0
  else
    ((samplePoints.countP fun p => hasPointWithin dist cellOf idx p radius : ℕ) : ℚ) /
      (samplePoints.length : ℚ)

/-- matching.rs:118-128 segment_coverage exactly as called. -/
def segmentCoverage (dist : Pt → Pt → ℚ) (cellOf : Pt → ℤ × ℤ)
    (idx : GpsIndex) (geom : List Pt) : ℚ :=
  segmentCoverageWith dist cellOf idx geom MATCH_THRESHOLD_M

/-- matching.rs SegmentCoverage. -/
structure SegmentCoverage where
  coveragePct : ℚ
  lengthM : ℚ
  deriving DecidableEq

/-- matching.rs:19-61 compute_coverage (the eprintln summaries have no
observable output and are omitted). -/
def computeCoverage (dist : Pt → Pt → ℚ) (cellOf : Pt → ℤ × ℤ)
    (segments : List Segment) (activities : List Activity) :
    List SegmentCoverage :=
  let gpsIndex := buildGpsIndex dist cellOf activities
  segments.map fun seg =>
    { coveragePct := segmentCoverage dist cellOf gpsIndex seg.geometry,
      lengthM := linestringLength dist seg.geometry }

/-! ### Grid aggregation (src/grid.rs) -/

/-- grid.rs GridConfig. -/
structure GridConfig where
  cellSizeM : ℚ
  originLon : ℚ
  originLat : ℚ
  dlat : ℚ
  dlon : ℚ
  cols : ℕ
  rows : ℕ
  deriving DecidableEq

/-- grid.rs Cell. -/
structure Cell where
  id : ℕ
  row : ℕ
  col : ℕ
  hasTrail : Bool
  visited : Bool
  trailKm : ℚ
  coveredKm : ℚ
  segmentIds : List ℕ
  deriving DecidableEq

/-- grid.rs GridResult. -/
structure GridResult where
  config : GridConfig
  cells : List Cell
  segmentCells : List (List ℕ)
  deriving DecidableEq

/-- grid.rs:144-154 point_to_cell. Rust's `as usize` cast of the floored
f64 saturates below zero; Int.toNat models that. -/
def pointToCell (lat lon : ℚ) (config : GridConfig) : Option ℕ :=
  if ¬(BBOX_SOUTH ≤ lat ∧ lat ≤ BBOX_NORTH) ∨
     ¬(BBOX_WEST ≤ lon ∧ lon ≤ BBOX_EAST) then
    none
  else
    let col := (ratFloor ((lon - config.originLon) / config.dlon)).toNat
    let row := (ratFloor ((lat - config.originLat) / config.dlat)).toNat
    if config.cols ≤ col ∨ config.rows ≤ row then none
    else some (row * config.cols + col)

/-- grid.rs:85-94: the distinct, sorted cell ids that a segment's
discretized samples hit. The HashSet contents are List.dedup of the hit
sequence; HashSet::into_iter's unspecified enumeration order is an
arbitrary function (shuffle) applied before sort_unstable. -/
def segmentCellIds (dist : Pt → Pt → ℚ) (shuffle : List ℕ → List ℕ)
    (config : GridConfig) (geom : List Pt) : List ℕ :=
  (shuffle (((discretizeLinestring dist geom DISCRETIZE_STEP_M).filterMap
      fun p => pointToCell p.1 p.2 config).dedup)).mergeSort
    fun a b => decide (a ≤ b)

/-- grid.rs:97-101: the even per-cell length share in km; 0 when the
segment touches no cell. -/
def kmPerCellOf (lengthM : ℚ) (cellIds : List ℕ) : ℚ :=
  if cellIds.isEmpty then 0 else lengthM / 1000 / (cellIds.length : ℚ)

/-- Positional update of the cells vector (cells[cell_id] mutation). -/
def modifyAt {α : Type} : List α → ℕ → (α → α) → List α
  | [], _, _ => []
  | a :: l, 0, f => f a :: l
  | a :: l, n + 1, f => a :: modifyAt l n f

/-- grid.rs:104-115: account one touched cell to one segment. -/
def applyCell (segIdx : ℕ) (kmPerCell coveredKmPerCell : ℚ)
    (isCovered : Bool) (cells : List Cell) (cellId : ℕ) : List Cell :=
  modifyAt cells cellId fun c =>
    { c with
      hasTrail := true
      trailKm := c.trailKm + kmPerCell
      coveredKm := c.coveredKm + coveredKmPerCell
      visited := if isCovered then true else c.visited
      segmentIds :=
        if c.segmentIds.contains segIdx then c.segmentIds
        else c.segmentIds ++ [segIdx] }

/-- grid.rs:80-118: body of the per-segment loop. State: (cells,
segment_cells). -/
def gridStep (dist : Pt → Pt → ℚ) (shuffle : List ℕ → List ℕ)
    (config : GridConfig) (coverage : List SegmentCoverage)
    (st : List Cell × List (List ℕ)) (iseg : ℕ × Segment) :
    List Cell × List (List ℕ) :=
  let cov := coverage.getD iseg.1 ⟨0, 0⟩
  let isCovered := decide (COVERED_THRESHOLD ≤ cov.coveragePct)
  let cellIds := segmentCellIds dist shuffle config iseg.2.geometry
  let kmPerCell := kmPerCellOf cov.lengthM cellIds
  let coveredKmPerCell := if isCovered then kmPerCell else 0
  (cellIds.foldl (applyCell iseg.1 kmPerCell coveredKmPerCell isCovered) st.1,
   st.2 ++ [cellIds])

/-- grid.rs:39-142 compute_grid. dlat and dlon are derived in the source
from cell_size_m via π and cos(center_lat) (grid.rs:45-48); transcendental,
so the embedding takes them as parameters. coverage[seg_idx] (grid.rs:81)
is modelled with getD; the pipeline always passes index-aligned lists. -/
def computeGrid (dist : Pt → Pt → ℚ) (shuffle : List ℕ → List ℕ)
    (dlat dlon cellSizeM : ℚ) (segments : List Segment)
    (coverage : List SegmentCoverage) : GridResult :=
  let cols := (ratCeil ((BBOX_EAST - BBOX_WEST) / dlon)).toNat
  let rows := (ratCeil ((BBOX_NORTH - BBOX_SOUTH) / dlat)).toNat
  let config : GridConfig :=
    ⟨cellSizeM, BBOX_WEST, BBOX_SOUTH, dlat, dlon, cols, rows⟩
  let initCells : List Cell := (List.range (cols * rows)).map fun id =>
    ⟨id, id / cols, id % cols, false, false, 0, 0, []⟩
  let r := segments.enum.foldl (gridStep dist shuffle config coverage)
    (initCells, [])
  ⟨config, r.1, r.2⟩

unseal Rat.add Rat.sub Rat.mul Rat.inv Rat.ofScientific in
example :
    pointToCell 44.62 5.04 ⟨20, BBOX_WEST, BBOX_SOUTH, 1/100, 1/100, 18, 7⟩ =
      some 0 := by
  decide

unseal Rat.add Rat.sub Rat.mul Rat.inv Rat.ofScientific in
example : pointToCell 44 5.04 ⟨20, BBOX_WEST, BBOX_SOUTH, 1, 1, 1, 1⟩ = none := by
  decide

unseal Rat.add Rat.sub Rat.mul Rat.inv Rat.ofScientific List.merge List.mergeSort in
example :
    segmentCellIds (fun _ _ => 0) (fun l => l) ⟨20, BBOX_WEST, BBOX_SOUTH, 1, 1, 1, 1⟩
      [(44.62, 5.04), (44.62, 5.04)] = [0] := by
  decide

/-! ## Claim C8: junction classification -/

theorem foldl_bump_count (l : List ℤ) (m : ℤ → ℕ) (k : ℤ) :
    (l.foldl bump m) k = m k + l.count k := by
  induction l generalizing m with
  | nil => simp
  | cons a t ih =>
    rw [List.foldl_cons, ih, List.count_cons]
    unfold bump
    by_cases h : k = a
    · subst h; simp; omega
    · have hne : (a == k) = false := by simp [Ne.symm h]
      simp [h, hne]

theorem nodeCounts_eq_sum {α : Type} (ways : List (RawWay α)) (n : ℤ) :
    nodeCounts ways n = (ways.map fun w => w.nodes.count n).sum := by
  unfold nodeCounts
  suffices h : ∀ (m : ℤ → ℕ),
      (ways.foldl (fun m w => w.nodes.foldl bump m) m) n =
        m n + (ways.map fun w => w.nodes.count n).sum by
    simpa using h fun _ => 0
  induction ways with
  | nil => simp
  | cons w ws ih =>
    intro m
    rw [List.foldl_cons, ih, foldl_bump_count]
    simp [Nat.add_assoc]

/-- C8: a node is classified as a junction (shared node, segmentation cut
point) iff its total occurrence count over all ways' node-id arrays is at
least 2 — duplicate occurrences inside one way count exactly like
occurrences in different ways. -/
theorem junction_iff_total_count_ge_two {α : Type} (ways : List (RawWay α)) (n : ℤ) :
    isSharedNode ways n = true ↔ 2 ≤ (ways.map fun w => w.nodes.count n).sum := by
  unfold isSharedNode
  rw [decide_eq_true_iff, nodeCounts_eq_sum]
  omega

example :
    isSharedNode [RawWay.mk [1, 2, 1] ([] : List ℕ)] 1 = true ∧
    isSharedNode [RawWay.mk [1, 2] [], RawWay.mk [2, 3] ([] : List ℕ)] 2 = true ∧
    isSharedNode [RawWay.mk [1, 2] [], RawWay.mk [2, 3] ([] : List ℕ)] 1 = false := by
  decide

/-! ## Claim C6: inclusive radius comparison -/

/-- C6: a trace point stored in one of the scanned 3×3 neighborhood cells
whose distance equals the radius exactly is a match — has_point_within
compares with ≤ and returns true. -/
theorem boundary_point_matches (dist : Pt → Pt → ℚ) (cellOf : Pt → ℤ × ℤ)
    (idx : GpsIndex) (p q : Pt) (radius : ℚ)
    (hq : ∃ o ∈ neighborOffsets,
      q ∈ idx.cells ((cellOf p).1 + o.1, (cellOf p).2 + o.2))
    (hd : dist p q = radius) :
    hasPointWithin dist cellOf idx p radius = true := by
  obtain ⟨o, ho, hmem⟩ := hq
  unfold hasPointWithin
  rw [List.any_eq_true]
  refine ⟨o, ho, ?_⟩
  rw [List.any_eq_true]
  exact ⟨q, hmem, by rw [hd]; simp⟩

theorem boundary_point_matches_witness :
    hasPointWithin (fun _ _ => 10) (fun _ => (0, 0))
      ⟨fun k => if k = (0, 0) then [(1, 1)] else []⟩ (0, 0) 10 = true :=
  boundary_point_matches _ _ _ _ ((1 : ℚ), (1 : ℚ)) _
    ⟨(0, 0), by decide, by decide⟩ rfl

/-! ## Claim C5: coverage monotone in the match radius -/

theorem hasPointWithin_mono (dist : Pt → Pt → ℚ) (cellOf : Pt → ℤ × ℤ)
    (idx : GpsIndex) (p : Pt) {r1 r2 : ℚ} (hr : r1 ≤ r2)
    (h : hasPointWithin dist cellOf idx p r1 = true) :
    hasPointWithin dist cellOf idx p r2 = true := by
  unfold hasPointWithin at h ⊢
  rw [List.any_eq_true] at h ⊢
  obtain ⟨o, ho, hin⟩ := h
  rw [List.any_eq_true] at hin
  obtain ⟨q, hq, hle⟩ := hin
  refine ⟨o, ho, ?_⟩
  rw [List.any_eq_true]
  exact ⟨q, hq, decide_eq_true ((of_decide_eq_true hle).trans hr)⟩

theorem countP_mono_of_imp {α : Type} (l : List α) (p q : α → Bool)
    (h : ∀ a ∈ l, p a = true → q a = true) : l.countP p ≤ l.countP q := by
  induction l with
  | nil => simp
  | cons a t ih =>
    rw [List.countP_cons, List.countP_cons]
    have ht := ih fun x hx hp => h x (List.mem_cons_of_mem _ hx) hp
    by_cases hp : p a = true
    · have hq := h a (List.mem_cons_self a t) hp
      simp only [hp, hq, if_true]
      omega
    · by_cases hq : q a = true
      · simp only [hp, hq, Bool.false_eq_true, if_false, if_true]
        omega
      · simp only [hp, hq, Bool.false_eq_true, if_false]
        omega

/-- C5: for a fixed trace index and segment geometry, the coverage
fraction is monotone in the match radius. -/
theorem coverage_monotone_in_radius (dist : Pt → Pt → ℚ) (cellOf : Pt → ℤ × ℤ)
    (idx : GpsIndex) (geom : List Pt) {r1 r2 : ℚ} (hr : r1 ≤ r2) :
    segmentCoverageWith dist cellOf idx geom r1 ≤
      segmentCoverageWith dist cellOf idx geom r2 := by
  unfold segmentCoverageWith
  by_cases he : (discretize dist geom TRAIL_STEP_M).isEmpty
  · simp [he]
  · simp only [he, if_false, Bool.false_eq_true]
    have hcount := countP_mono_of_imp (discretize dist geom TRAIL_STEP_M)
      (fun p => hasPointWithin dist cellOf idx p r1)
      (fun p => hasPointWithin dist cellOf idx p r2)
      fun a _ hp => hasPointWithin_mono dist cellOf idx a hr hp
    have hnum : ((List.countP (fun p => hasPointWithin dist cellOf idx p r1)
        (discretize dist geom TRAIL_STEP_M) : ℕ) : ℚ) ≤
        ((List.countP (fun p => hasPointWithin dist cellOf idx p r2)
          (discretize dist geom TRAIL_STEP_M) : ℕ) : ℚ) := by
      exact_mod_cast hcount
    have hden : (0 : ℚ) ≤ ((discretize dist geom TRAIL_STEP_M).length : ℚ) := by
      positivity
    exact div_le_div_of_nonneg_right hnum hden

theorem coverage_monotone_in_radius_witness :
    segmentCoverageWith (fun _ _ => 7) (fun _ => (0, 0)) ⟨fun _ => []⟩
        [((0 : ℚ), (0 : ℚ)), (9, 9)] 1 ≤
      segmentCoverageWith (fun _ _ => 7) (fun _ => (0, 0)) ⟨fun _ => []⟩
        [((0 : ℚ), (0 : ℚ)), (9, 9)] 2 :=
  coverage_monotone_in_radius _ _ _ _ (by norm_num)

/-! ## Claim C7: guarded divisions -/

/-- C7: neither coverage nor the grid length share divides by zero — a
segment with no samples gets coverage 0, a segment touching no cell gets
share 0, and in the remaining branches the divisor is strictly positive
(so no NaN or infinity can arise from these divisions). -/
theorem divisions_are_guarded (dist : Pt → Pt → ℚ) (cellOf : Pt → ℤ × ℤ)
    (idx : GpsIndex) (geom : List Pt) (L : ℚ) (cellIds : List ℕ) :
    (discretize dist geom TRAIL_STEP_M = [] →
      segmentCoverage dist cellOf idx geom = 0)
    ∧ (discretize dist geom TRAIL_STEP_M ≠ [] →
        (0 : ℚ) < ((discretize dist geom TRAIL_STEP_M).length : ℚ)
        ∧ segmentCoverage dist cellOf idx geom =
            ((List.countP
              (fun p => hasPointWithin dist cellOf idx p MATCH_THRESHOLD_M)
              (discretize dist geom TRAIL_STEP_M) : ℕ) : ℚ) /
              ((discretize dist geom TRAIL_STEP_M).length : ℚ))
    ∧ kmPerCellOf L [] = 0
    ∧ (cellIds ≠ [] →
        (0 : ℚ) < (cellIds.length : ℚ)
        ∧ kmPerCellOf L cellIds = L / 1000 / (cellIds.length : ℚ)) := by
  refine ⟨?_, ?_, ?_, ?_⟩
  · intro h
    unfold segmentCoverage segmentCoverageWith
    simp [h]
  · intro h
    have hlen : 0 < (discretize dist geom TRAIL_STEP_M).length :=
      List.length_pos.mpr h
    constructor
    · exact_mod_cast hlen
    · unfold segmentCoverage segmentCoverageWith
      have hne : (discretize dist geom TRAIL_STEP_M).isEmpty = false := by
        simpa [List.isEmpty_iff] using h
      simp [hne]
  · simp [kmPerCellOf]
  · intro h
    have hlen : 0 < cellIds.length := List.length_pos.mpr h
    have hne : cellIds.isEmpty = false := by simpa [List.isEmpty_iff] using h
    refine ⟨by exact_mod_cast hlen, ?_⟩
    simp [kmPerCellOf, hne]

theorem divisions_are_guarded_witness :
    segmentCoverage (fun _ _ => 0) (fun _ => (0, 0)) ⟨fun _ => []⟩ [] = 0 ∧
    kmPerCellOf 5 [] = 0 :=
  ⟨(divisions_are_guarded (fun _ _ => 0) (fun _ => (0, 0)) ⟨fun _ => []⟩ [] 5
      []).1 rfl,
   (divisions_are_guarded (fun _ _ => 0) (fun _ => (0, 0)) ⟨fun _ => []⟩ [] 5
      []).2.2.1⟩

/-! ## Claim C10: cell ids stay in bounds -/

theorem row_col_id_lt (row col rows cols : ℕ) (hr : row < rows) (hc : col < cols) :
    row * cols + col < rows * cols :=
  calc row * cols + col < row * cols + cols := by omega
    _ = (row + 1) * cols := by ring
    _ ≤ rows * cols := Nat.mul_le_mul_right _ (by omega)

theorem modifyAt_length {α : Type} (l : List α) (i : ℕ) (f : α → α) :
    (modifyAt l i f).length = l.length := by
  induction l generalizing i with
  | nil => simp [modifyAt]
  | cons a t ih =>
    cases i with
    | zero => simp [modifyAt]
    | succ n => simp [modifyAt, ih]

theorem foldl_applyCell_length (segIdx : ℕ) (k ck : ℚ) (isC : Bool) :
    ∀ (ids : List ℕ) (cells : List Cell),
      (ids.foldl (applyCell segIdx k ck isC) cells).length = cells.length := by
  intro ids
  induction ids with
  | nil => intro cells; rfl
  | cons i t ih =>
    intro cells
    rw [List.foldl_cons, ih]
    unfold applyCell
    exact modifyAt_length _ _ _

theorem gridFold_cells_length (dist : Pt → Pt → ℚ) (shuffle : List ℕ → List ℕ)
    (config : GridConfig) (coverage : List SegmentCoverage) :
    ∀ (isegs : List (ℕ × Segment)) (st : List Cell × List (List ℕ)),
      ((isegs.foldl (gridStep dist shuffle config coverage) st).1).length =
        st.1.length := by
  intro isegs
  induction isegs with
  | nil => intro st; rfl
  | cons a t ih =>
    intro st
    rw [List.foldl_cons, ih]
    simp only [gridStep]
    exact foldl_applyCell_length _ _ _ _ _ _

/-- C10: point_to_cell returns none or an id strictly below rows * cols,
and compute_grid's cells vector has exactly rows * cols entries, so the
cells[cell_id] access never goes out of bounds. -/
theorem pointToCell_id_in_bounds :
    (∀ (lat lon : ℚ) (config : GridConfig) (id : ℕ),
        pointToCell lat lon config = some id → id < config.rows * config.cols)
    ∧ ∀ (dist : Pt → Pt → ℚ) (shuffle : List ℕ → List ℕ)
        (dlat dlon cellSizeM : ℚ) (segments : List Segment)
        (coverage : List SegmentCoverage),
        (computeGrid dist shuffle dlat dlon cellSizeM segments coverage).cells.length =
          (computeGrid dist shuffle dlat dlon cellSizeM segments coverage).config.rows *
            (computeGrid dist shuffle dlat dlon cellSizeM segments coverage).config.cols := by
  constructor
  · intro lat lon config id h
    simp only [pointToCell] at h
    split at h
    · simp at h
    · split at h
      · simp at h
      · rename_i hguard
        rw [Option.some.injEq] at h
        push_neg at hguard
        subst h
        exact row_col_id_lt _ _ _ _ hguard.2 hguard.1
  · intro dist shuffle dlat dlon cellSizeM segments coverage
    simp only [computeGrid]
    rw [gridFold_cells_length]
    simp [Nat.mul_comm]

unseal Rat.add Rat.sub Rat.mul Rat.inv Rat.ofScientific in
theorem pointToCell_id_in_bounds_witness :
    0 < (GridConfig.mk 20 BBOX_WEST BBOX_SOUTH (1/100) (1/100) 18 7).rows *
      (GridConfig.mk 20 BBOX_WEST BBOX_SOUTH (1/100) (1/100) 18 7).cols :=
  pointToCell_id_in_bounds.1 44.62 5.04
    (GridConfig.mk 20 BBOX_WEST BBOX_SOUTH (1/100) (1/100) 18 7) 0 (by decide)

/-! ## Claim C4: per-segment trail-km conservation -/

/- C4 as stated is false: a segment whose samples all fall outside the
bounding box touches zero cells, so the grid adds zero trail_km on its
behalf even though its recorded length is 1000 m (1 km) — off by far more
than the 1e-6 tolerance. Inputs: one segment from (0,0) to (0,1) (outside
the 44.61..44.69 × 5.03..5.22 bbox), coverage entry with length_m = 1000. -/
unseal Rat.add Rat.sub Rat.mul Rat.inv Rat.ofScientific List.merge List.mergeSort in
theorem segment_outside_bbox_contributes_zero :
    (((computeGrid (fun _ _ => 0) (fun l => l) 1 1 20
        [⟨[((0:ℚ), (0:ℚ)), (0, 1)]⟩] [⟨0, 1000⟩]).cells.map
          fun c => c.trailKm).sum = 0)
    ∧ (computeGrid (fun _ _ => 0) (fun l => l) 1 1 20
        [⟨[((0:ℚ), (0:ℚ)), (0, 1)]⟩] [⟨0, 1000⟩]).segmentCells = [[]]
    ∧ ¬(|(0:ℚ) - 1000 / 1000| ≤ 1 / 1000000) := by
  decide

/-- C4 (amended): for every segment that touches at least one grid cell,
the sum of the per-cell trail_km shares over the cells it touches is
exactly its length in km (hence within the 1e-6 tolerance); a segment
touching zero cells contributes zero instead. -/
theorem trail_km_conserved (dist : Pt → Pt → ℚ) (shuffle : List ℕ → List ℕ)
    (config : GridConfig) (geom : List Pt) (L : ℚ)
    (h : segmentCellIds dist shuffle config geom ≠ []) :
    ((segmentCellIds dist shuffle config geom).map fun _ =>
        kmPerCellOf L (segmentCellIds dist shuffle config geom)).sum = L / 1000 := by
  set ids := segmentCellIds dist shuffle config geom with hids
  have hne : ids.isEmpty = false := by simpa [List.isEmpty_iff] using h
  have hlen : 0 < ids.length := List.length_pos.mpr h
  have hQ : ((ids.length : ℕ) : ℚ) ≠ 0 := Nat.cast_ne_zero.mpr (by omega)
  rw [List.map_const', List.sum_replicate]
  simp only [kmPerCellOf, hne, Bool.false_eq_true, if_false]
  rw [nsmul_eq_mul]
  field_simp
  ring

unseal Rat.add Rat.sub Rat.mul Rat.inv Rat.ofScientific List.merge List.mergeSort in
theorem trail_km_conserved_witness :
    ((segmentCellIds (fun _ _ => 0) (fun l => l)
        (GridConfig.mk 20 BBOX_WEST BBOX_SOUTH 1 1 1 1)
        [(44.62, 5.04), (44.62, 5.04)]).map fun _ =>
      kmPerCellOf 7 (segmentCellIds (fun _ _ => 0) (fun l => l)
        (GridConfig.mk 20 BBOX_WEST BBOX_SOUTH 1 1 1 1)
        [(44.62, 5.04), (44.62, 5.04)])).sum = 7 / 1000 :=
  trail_km_conserved _ _ _ _ 7 (by decide)

/-! ## Claim C1: endpoints of discretization -/

theorem foldl_discStep_append (dist : Pt → Pt → ℚ) (step : ℚ) :
    ∀ (ws : List (Pt × Pt)) (acc : List Pt × ℚ),
      ∃ t, (ws.foldl (discStep dist step) acc).1 = acc.1 ++ t := by
  intro ws
  induction ws with
  | nil => intro acc; exact ⟨[], by simp⟩
  | cons w ws ih =>
    intro acc
    obtain ⟨t2, ht2⟩ := ih (discStep dist step acc w)
    rw [List.foldl_cons, ht2]
    by_cases h : dist w.1 w.2 < 1/1000000
    · exact ⟨t2, by simp only [discStep]; rw [if_pos h]⟩
    · exact ⟨windowPoints w.1 w.2 (dist w.1 w.2) step acc.2 ++ t2, by
        simp only [discStep]
        rw [if_neg h]
        simp [List.append_assoc]⟩

/-- C1 (amended): grid.rs's discretize_linestring always emits both the
first and the last point of a ≥ 2-point polyline for every step; the
matching.rs discretize always emits the first point but omits the last
point whenever the accumulated steps do not land exactly on it (see the
counterexample). -/
theorem discretize_endpoint_policy (dist : Pt → Pt → ℚ) (c0 c1 : Pt)
    (rest : List Pt) (step : ℚ) :
    (discretizeLinestring dist (c0 :: c1 :: rest) step).head? = some c0
    ∧ (c0 :: c1 :: rest).getLast (List.cons_ne_nil c0 (c1 :: rest)) ∈
        discretizeLinestring dist (c0 :: c1 :: rest) step
    ∧ (discretize dist (c0 :: c1 :: rest) step).head? = some c0 := by
  obtain ⟨t, ht⟩ :=
    foldl_discStep_append dist step (windows (c0 :: c1 :: rest)) ([c0], 0)
  refine ⟨?_, ?_, ?_⟩
  · simp only [discretizeLinestring]
    rw [ht]
    simp
  · simp only [discretizeLinestring]
    exact List.mem_append_right _ (List.mem_singleton.mpr rfl)
  · simp only [discretize]
    rw [ht]
    simp

/- C1 as stated is false for matching.rs's discretize: two points 3 m
apart (a distance realizable by haversine_m) with step 5 m leave a final
residual of 3 m < step, and the last point is not emitted. -/
unseal Rat.add Rat.sub Rat.mul Rat.inv Rat.ofScientific in
theorem discretize_omits_last_point :
    2 ≤ ([((0:ℚ), (0:ℚ)), (1, 1)] : List Pt).length
    ∧ (0:ℚ) < 5
    ∧ discretize (fun _ _ => 3) [((0:ℚ), (0:ℚ)), (1, 1)] 5 = [(0, 0)]
    ∧ ((1:ℚ), (1:ℚ)) ∉ discretize (fun _ _ => 3) [((0:ℚ), (0:ℚ)), (1, 1)] 5 := by
  decide

/-! ## Claim C2: a way with no junctions is one segment -/

theorem foldl_splitStep_id {α : Type} (shared : ℤ → Bool) (nodes : List ℤ)
    (coords : List α) :
    ∀ (l : List ℕ) (acc : List (List α) × ℕ),
      (∀ i ∈ l, shared (nodes.getD i 0) = false) →
      l.foldl (splitStep shared nodes coords) acc = acc := by
  intro l
  induction l with
  | nil => intro acc _; rfl
  | cons i t ih =>
    intro acc h
    rw [List.foldl_cons]
    have hi : shared (nodes.getD i 0) = false := h i (List.mem_cons_self i t)
    have hstep : splitStep shared nodes coords acc i = acc := by
      unfold splitStep
      rw [hi]
      simp
    rw [hstep]
    exact ih acc fun j hj => h j (List.mem_cons_of_mem _ hj)

/-- C2: a retained way (equal-length node and coordinate arrays, at least
2 coordinates) none of whose interior nodes is a junction splits into
exactly one segment — the whole original coordinate sequence. -/
theorem no_junction_yields_whole_way {α : Type} (shared : ℤ → Bool)
    (nodes : List ℤ) (coords : List α)
    (hlen : nodes.length = coords.length) (h2 : 2 ≤ coords.length)
    (hnj : ∀ i, 1 ≤ i → i + 1 < nodes.length → shared (nodes.getD i 0) = false) :
    splitWay shared nodes coords = [coords] := by
  simp only [splitWay]
  rw [foldl_splitStep_id shared nodes coords _ ([], 0) ?_]
  · simp [h2]
  · intro i hi
    rw [List.mem_range'_1] at hi
    exact hnj i hi.1 (by omega)

theorem no_junction_yields_whole_way_witness :
    splitWay (fun _ => false) [1, 2, 3] [(10:ℕ), 20, 30] = [[10, 20, 30]] :=
  no_junction_yields_whole_way _ _ _ rfl (by norm_num) fun _ _ _ => rfl

/-! ## Claim C9: determinism of the pipeline -/

theorem mergeSort_eq_of_perm {l1 l2 : List ℕ} (h : l1.Perm l2) :
    (l1.mergeSort fun a b => decide (a ≤ b)) =
      (l2.mergeSort fun a b => decide (a ≤ b)) :=
  List.eq_of_perm_of_sorted
    ((List.mergeSort_perm l1 _).trans (h.trans (List.mergeSort_perm l2 _).symm))
    (List.sorted_mergeSort' l1) (List.sorted_mergeSort' l2)

theorem segmentCellIds_shuffle_irrelevant (dist : Pt → Pt → ℚ)
    {sh1 sh2 : List ℕ → List ℕ}
    (h1 : ∀ l, (sh1 l).Perm l) (h2 : ∀ l, (sh2 l).Perm l)
    (config : GridConfig) (geom : List Pt) :
    segmentCellIds dist sh1 config geom = segmentCellIds dist sh2 config geom := by
  unfold segmentCellIds
  exact mergeSort_eq_of_perm ((h1 _).trans (h2 _).symm)

theorem gridStep_shuffle_irrelevant (dist : Pt → Pt → ℚ)
    {sh1 sh2 : List ℕ → List ℕ}
    (h1 : ∀ l, (sh1 l).Perm l) (h2 : ∀ l, (sh2 l).Perm l)
    (config : GridConfig) (coverage : List SegmentCoverage) :
    gridStep dist sh1 config coverage = gridStep dist sh2 config coverage := by
  funext st iseg
  simp only [gridStep,
    segmentCellIds_shuffle_irrelevant dist h1 h2 config iseg.2.geometry]

/-- C9: the pipeline is deterministic — segmentation and coverage are pure
functions of their inputs, and compute_grid's only unordered-iteration
point (HashSet::into_iter before sort_unstable) cannot change any part of
the result: two runs whose set-enumeration orders are arbitrary
permutations produce identical GridResults (cells, accumulations and the
sorted per-segment cell-id lists included). -/
theorem pipeline_deterministic {α : Type} (ways : List (RawWay α))
    (dist : Pt → Pt → ℚ) (cellOf : Pt → ℤ × ℤ) (segments : List Segment)
    (activities : List Activity) (sh1 sh2 : List ℕ → List ℕ)
    (dlat dlon cellSizeM : ℚ) (coverage : List SegmentCoverage)
    (h1 : ∀ l, (sh1 l).Perm l) (h2 : ∀ l, (sh2 l).Perm l) :
    waysSegments ways = waysSegments ways
    ∧ computeCoverage dist cellOf segments activities =
        computeCoverage dist cellOf segments activities
    ∧ computeGrid dist sh1 dlat dlon cellSizeM segments coverage =
        computeGrid dist sh2 dlat dlon cellSizeM segments coverage := by
  refine ⟨rfl, rfl, ?_⟩
  simp only [computeGrid]
  rw [gridStep_shuffle_irrelevant dist h1 h2 _ coverage]

theorem pipeline_deterministic_witness :
    computeGrid (fun _ _ => 0) (fun l => l) 1 1 20
        [⟨[(44.62, 5.04), (44.63, 5.05)]⟩] [⟨1, 500⟩] =
      computeGrid (fun _ _ => 0) (fun l => l.reverse) 1 1 20
        [⟨[(44.62, 5.04), (44.63, 5.05)]⟩] [⟨1, 500⟩] :=
  (pipeline_deterministic ([] : List (RawWay ℕ)) (fun _ _ => 0) (fun _ => (0, 0))
    [⟨[(44.62, 5.04), (44.63, 5.05)]⟩] [] (fun l => l) (fun l => l.reverse)
    1 1 20 [⟨1, 500⟩] (fun l => List.Perm.refl l)
    (fun l => List.reverse_perm l)).2.2

/-! ## Claim C3: segmentation coverage — glue reproduces the way

Proof infrastructure: the loop invariant of osm.rs:148-162 relates the
state (segments emitted, seg_start) to the prefix of the way consumed. -/

theorem glue_append_singleton {α : Type} (segs : List (List α)) (t : List α)
    (h : segs ≠ []) : glue (segs ++ [t]) = glue segs ++ t.drop 1 := by
  cases segs with
  | nil => exact absurd rfl h
  | cons s ss =>
    simp [glue, List.map_append, List.flatten_append, List.append_assoc]

theorem take_drop_head? {α : Type} (coords : List α) (st k : ℕ) :
    ((coords.drop st).take (k + 1)).head? = coords[st]? := by
  rw [List.head?_eq_getElem?, List.getElem?_take, if_pos (Nat.succ_pos k),
    List.getElem?_drop]
  simp

theorem take_drop_getLast? {α : Type} (coords : List α) (st k : ℕ)
    (h : st + k < coords.length) :
    ((coords.drop st).take (k + 1)).getLast? = coords[st + k]? := by
  rw [List.getLast?_eq_getElem?]
  have hlen : ((coords.drop st).take (k + 1)).length = k + 1 := by
    rw [List.length_take, List.length_drop]
    omega
  rw [hlen]
  simp only [Nat.add_sub_cancel]
  rw [List.getElem?_take, if_pos (Nat.lt_succ_self k), List.getElem?_drop]

/-- The invariant carried through the splitting loop: seg_start stays an
interior index, and the emitted segments glue to exactly the consumed
prefix, each ending at the coordinate of the current seg_start, adjacent
segments overlapping in exactly that coordinate. -/
def SplitInv {α : Type} (coords : List α) (r : List (List α) × ℕ) : Prop :=
  r.2 + 2 ≤ coords.length
  ∧ (r.1 = [] → r.2 = 0)
  ∧ (r.1 ≠ [] →
      glue r.1 = coords.take (r.2 + 1)
      ∧ (∀ s, r.1.getLast? = some s → s.getLast? = coords[r.2]?)
      ∧ List.Chain' (fun s t => s.getLast? = t.head?) r.1)

theorem splitStep_snd_le {α : Type} (shared : ℤ → Bool) (nodes : List ℤ)
    (coords : List α) (segs : List (List α)) (st i : ℕ) (h : st ≤ i) :
    (splitStep shared nodes coords (segs, st) i).2 ≤ i := by
  unfold splitStep
  split
  · exact le_refl i
  · exact h

theorem splitStep_inv {α : Type} (shared : ℤ → Bool) (nodes : List ℤ)
    (coords : List α) (i : ℕ) (segs : List (List α)) (st : ℕ)
    (hstlt : st < i) (hi2 : i + 2 ≤ coords.length)
    (hinv : SplitInv coords (segs, st)) :
    SplitInv coords (splitStep shared nodes coords (segs, st) i) := by
  by_cases hs : shared (nodes.getD i 0) = true
  case neg =>
    have hkeep : splitStep shared nodes coords (segs, st) i = (segs, st) := by
      unfold splitStep
      rw [if_neg hs]
    rw [hkeep]
    exact hinv
  case pos =>
    have hlen2 : 2 ≤ ((coords.drop st).take (i - st + 1)).length := by
      rw [List.length_take, List.length_drop]
      omega
    have hcut : splitStep shared nodes coords (segs, st) i =
        (segs ++ [(coords.drop st).take (i - st + 1)], i) := by
      unfold splitStep
      rw [if_pos hs, if_pos hstlt, if_pos hlen2]
    rw [hcut]
    have hhead : ((coords.drop st).take (i - st + 1)).head? = coords[st]? :=
      take_drop_head? coords st (i - st)
    have hlast : ((coords.drop st).take (i - st + 1)).getLast? = coords[i]? := by
      have h' := take_drop_getLast? coords st (i - st) (by omega)
      have e : st + (i - st) = i := by omega
      rw [e] at h'
      exact h'
    refine ⟨hi2, fun hnil => absurd hnil (by simp), fun _ => ?_⟩
    rcases eq_or_ne segs [] with hnil | hne
    · subst hnil
      have hst0 : st = 0 := hinv.2.1 rfl
      subst hst0
      refine ⟨?_, ?_, ?_⟩
      · simp [glue]
      · intro s hs'
        simp only [List.nil_append, List.getLast?_singleton,
          Option.some.injEq] at hs'
        subst hs'
        exact hlast
      · simp
    · obtain ⟨hglue, hlastlast, hchain⟩ := hinv.2.2 hne
      refine ⟨?_, ?_, ?_⟩
      · rw [glue_append_singleton _ _ hne, hglue]
        have hdrop : ((coords.drop st).take (i - st + 1)).drop 1 =
            (coords.drop (st + 1)).take (i - st) := by
          rw [List.drop_take, List.drop_drop]
          congr 1
        rw [hdrop, ← List.take_add]
        congr 1
        omega
      · intro s hs'
        rw [List.getLast?_append] at hs'
        simp only [List.getLast?_singleton, Option.or_some,
          Option.some.injEq] at hs'
        subst hs'
        exact hlast
      · rw [List.chain'_append]
        refine ⟨hchain, List.chain'_singleton _, ?_⟩
        intro x hx y hy
        simp only [List.head?_cons, Option.mem_def, Option.some.injEq] at hy
        subst hy
        rw [hhead]
        exact hlastlast x (Option.mem_def.mp hx)

theorem splitFold_inv {α : Type} (shared : ℤ → Bool) (nodes : List ℤ)
    (coords : List α) :
    ∀ (idxs : List ℕ) (segs : List (List α)) (st : ℕ),
      List.Pairwise (· < ·) idxs →
      (∀ i ∈ idxs, st < i ∧ i + 2 ≤ coords.length) →
      SplitInv coords (segs, st) →
      SplitInv coords (idxs.foldl (splitStep shared nodes coords) (segs, st)) := by
  intro idxs
  induction idxs with
  | nil => intro segs st _ _ h; exact h
  | cons i t ih =>
    intro segs st hpw hbound hinv
    rw [List.foldl_cons]
    have hi := hbound i (List.mem_cons_self i t)
    have hinv' := splitStep_inv shared nodes coords i segs st hi.1 hi.2 hinv
    have hle : (splitStep shared nodes coords (segs, st) i).2 ≤ i :=
      splitStep_snd_le shared nodes coords segs st i (le_of_lt hi.1)
    obtain ⟨hlt, hpw'⟩ := List.pairwise_cons.mp hpw
    exact ih (splitStep shared nodes coords (segs, st) i).1
      (splitStep shared nodes coords (segs, st) i).2 hpw'
      (fun j hj => ⟨lt_of_le_of_lt hle (hlt j hj),
        (hbound j (List.mem_cons_of_mem _ hj)).2⟩) hinv'

/-- C3: for every retained way, the segments emitted for it, in order,
glue back (dropping the duplicated leading junction point of each segment
after the first) to exactly the original coordinate sequence, and
consecutive segments overlap in exactly that shared point: the last point
of one is the first point of the next. -/
theorem segmentation_reproduces_way {α : Type} (shared : ℤ → Bool)
    (nodes : List ℤ) (coords : List α)
    (hlen : nodes.length = coords.length) (h2 : 2 ≤ coords.length) :
    glue (splitWay shared nodes coords) = coords
    ∧ List.Chain' (fun s t => s.getLast? = t.head?)
        (splitWay shared nodes coords) := by
  simp only [splitWay]
  have hinv := splitFold_inv shared nodes coords
    (List.range' 1 (nodes.length - 2)) [] 0
    (List.pairwise_lt_range' 1 (nodes.length - 2))
    (fun i hi => by rw [List.mem_range'_1] at hi; exact ⟨by omega, by omega⟩)
    ⟨by omega, fun _ => rfl, fun h => absurd rfl h⟩
  set r := (List.range' 1 (nodes.length - 2)).foldl
    (splitStep shared nodes coords) ([], 0) with hr
  obtain ⟨hst2, hemp, hfull⟩ := hinv
  have hlastlen : 2 ≤ (coords.drop r.2).length := by
    rw [List.length_drop]
    omega
  rw [if_pos hlastlen]
  rcases eq_or_ne r.1 [] with hnil | hne
  · have hst0 := hemp hnil
    rw [hnil, hst0]
    simp [glue]
  · obtain ⟨hglue, hlast, hchain⟩ := hfull hne
    constructor
    · rw [glue_append_singleton _ _ hne, hglue, List.drop_drop,
        List.take_append_drop]
    · rw [List.chain'_append]
      refine ⟨hchain, List.chain'_singleton _, ?_⟩
      intro x hx y hy
      simp only [List.head?_cons, Option.mem_def, Option.some.injEq] at hy
      subst hy
      rw [List.head?_eq_getElem?, List.getElem?_drop]
      simpa using hlast x (Option.mem_def.mp hx)

theorem segmentation_reproduces_way_witness :
    glue (splitWay (fun n => n = 3) [1, 2, 3, 4, 5] [(10:ℕ), 20, 30, 40, 50]) =
        [10, 20, 30, 40, 50]
    ∧ List.Chain' (fun s t => s.getLast? = t.head?)
        (splitWay (fun n => n = 3) [1, 2, 3, 4, 5] [(10:ℕ), 20, 30, 40, 50]) :=
  segmentation_reproduces_way _ _ _ rfl (by norm_num)

end Synclinal
